import Mathlib

/-!
Verification development for the PyRate correction workflow (pyrate/correct.py)
and the per-pixel minimum-spanning-tree reducer exercised by
pyrate/tests/mst_tests.py.

Machine integers and dates are modelled as naturals; phase values only matter
through their missing/finite status, so a phase sample is an `Option Int`
(`none` models NaN).  Python dictionaries are modelled as association lists.
-/

namespace PyRateSpec

/-! ## Per-pixel MST reducer data model -/

abbrev Epoch := Nat

abbrev GEdge := Epoch × Epoch

/-- Modelled from the spec: an interferogram as seen by the MST reducer
(`pyrate/mst.py` is not under `src/`): a `(first, second)` epoch pair and a
2-D raster of phase samples where `none` is a missing (NaN) sample. -/
structure IfgM where
  first : Epoch
  second : Epoch
  phase : List (List (Option Int))
  deriving Repr, DecidableEq

def IfgM.nrows (i : IfgM) : Nat := i.phase.length

def IfgM.ncols (i : IfgM) : Nat := (i.phase.headD []).length

/-- Phase sample of one interferogram at pixel `(y, x)`; out-of-range reads
are missing. -/
def IfgM.phaseAt (i : IfgM) (y x : Nat) : Option Int :=
  (i.phase.getD y []).getD x none

/-! ## Spanning forest over epoch graphs

Modelled from the spec: the MST computation of `pyrate/mst.py` (not under
`src/`) processes the interferogram edges in their original stack order and
keeps an edge exactly when it joins two epochs that are not yet connected,
which yields a maximal spanning forest.  The state of the scan is the list of
connected components built so far together with the accepted edges. -/

/-- Find the component (list of epochs) containing `a`, if any. -/
def findComp : List (List Epoch) → Epoch → Option (List Epoch)
  | [], _ => none
  | c :: cs, a => if a ∈ c then some c else findComp cs a

/-- Remove the first occurrence of component `d` from the component list. -/
def eraseComp : List (List Epoch) → List Epoch → List (List Epoch)
  | [], _ => []
  | c :: cs, d => if c = d then cs else c :: eraseComp cs d

/-- One step of the forest scan: accept edge `e` iff its endpoints lie in
distinct components (new epochs start fresh components). -/
def mstStep (st : List (List Epoch) × List GEdge) (e : GEdge) :
    List (List Epoch) × List GEdge :=
  match findComp st.1 e.1, findComp st.1 e.2 with
  | some c1, some c2 =>
      if c1 = c2 then st
      else ((c1 ++ c2) :: eraseComp (eraseComp st.1 c1) c2, st.2 ++ [e])
  | some c1, none => ((c1 ++ [e.2]) :: eraseComp st.1 c1, st.2 ++ [e])
  | none, some c2 => ((c2 ++ [e.1]) :: eraseComp st.1 c2, st.2 ++ [e])
  | none, none =>
      if e.1 = e.2 then ([e.1] :: st.1, st.2)
      else ([e.1, e.2] :: st.1, st.2 ++ [e])

def mstFold (es : List GEdge) : List (List Epoch) × List GEdge :=
  es.foldl mstStep ([], [])

/-- The edges kept by the forest scan, in stack order. -/
def spanningForest (es : List GEdge) : List GEdge := (mstFold es).2

/-- Number of connected components of the epoch graph spanned by `es`,
as produced by the forest scan. -/
def numComponents (es : List GEdge) : Nat := (mstFold es).1.length

/-- All epoch endpoints mentioned by the edges, with multiplicity. -/
def nodesOf (es : List GEdge) : List Epoch := es.flatMap (fun e => [e.1, e.2])

/-- Number of distinct epochs touched by the edges. -/
def numDistinctNodes (es : List GEdge) : Nat := (nodesOf es).toFinset.card

/-! ## mst_matrix and default_mst -/

/-- Interferograms whose phase is finite (coherent) at pixel `(y, x)`,
in stack order. -/
def coherentAt (ifgs : List IfgM) (y x : Nat) : List IfgM :=
  ifgs.filter (fun i => (i.phaseAt y x).isSome)

/-- The `(first, second)` epoch pairs of a stack, in stack order. -/
def ifgEdges (ifgs : List IfgM) : List GEdge :=
  ifgs.map (fun i => (i.first, i.second))

/-- Modelled from the spec: the per-pixel result of `mst_matrix`
(`pyrate/mst.py`, not under `src/`).  Zero coherent interferograms yield the
missing marker (`none`); otherwise the spanning forest of the coherent
edges is returned.  Note the repository test
`mst_tests.py::test_partial_nan_pixel_stack` pins the single-coherent case
to a one-edge tree (`len(res[0,0]) == 1`), not the missing marker. -/
def mstPixel (ifgs : List IfgM) (y x : Nat) : Option (List GEdge) :=
  let coh := coherentAt ifgs y x
  if coh.isEmpty then none else some (spanningForest (ifgEdges coh))

def gridRows (ifgs : List IfgM) : Nat :=
  match ifgs with
  | [] => 0
  | i :: _ => i.nrows

def gridCols (ifgs : List IfgM) : Nat :=
  match ifgs with
  | [] => 0
  | i :: _ => i.ncols

/-- Modelled from the spec: `mst_matrix(ifgs, epochs)` returns a raster, of
the same shape as the input rasters, holding the per-pixel MST result. -/
def mst_matrix (ifgs : List IfgM) : List (List (Option (List GEdge))) :=
  (List.range (gridRows ifgs)).map fun y =>
    (List.range (gridCols ifgs)).map fun x => mstPixel ifgs y x

/-- Modelled from the spec: `default_mst(ifgs)` runs the same forest
computation once over the whole network, ignoring per-pixel missingness. -/
def default_mst (ifgs : List IfgM) : List GEdge :=
  spanningForest (ifgEdges ifgs)

/-! ## Forest-scan invariants -/

theorem findComp_eq_some {comps : List (List Epoch)} {a : Epoch}
    {c : List Epoch} (h : findComp comps a = some c) : c ∈ comps ∧ a ∈ c := by
  induction comps with
  | nil => simp [findComp] at h
  | cons hd tl ih =>
      by_cases hmem : a ∈ hd
      · simp [findComp, hmem] at h
        subst h
        exact ⟨List.mem_cons_self _ _, hmem⟩
      · simp [findComp, hmem] at h
        rcases ih h with ⟨h1, h2⟩
        exact ⟨List.mem_cons_of_mem _ h1, h2⟩

theorem findComp_eq_none {comps : List (List Epoch)} {a : Epoch}
    (h : findComp comps a = none) : ∀ c ∈ comps, a ∉ c := by
  induction comps with
  | nil => simp
  | cons hd tl ih =>
      by_cases hmem : a ∈ hd
      · simp [findComp, hmem] at h
      · simp [findComp, hmem] at h
        intro c hc
        rcases List.mem_cons.1 hc with rfl | hc
        · exact hmem
        · exact ih h c hc

theorem eraseComp_perm {comps : List (List Epoch)} {c : List Epoch}
    (h : c ∈ comps) : comps.Perm (c :: eraseComp comps c) := by
  induction comps with
  | nil => simp at h
  | cons hd tl ih =>
      by_cases he : hd = c
      · subst he
        simp [eraseComp]
      · rcases List.mem_cons.1 h with rfl | hmem
        · exact absurd rfl he
        · simp only [eraseComp, if_neg he]
          exact (List.Perm.cons hd (ih hmem)).trans (List.Perm.swap _ _ _)

theorem eraseComp_length {comps : List (List Epoch)} {c : List Epoch}
    (h : c ∈ comps) : (eraseComp comps c).length + 1 = comps.length := by
  have := (eraseComp_perm h).length_eq
  simp at this
  omega

theorem eraseComp_mem_of_ne {comps : List (List Epoch)} {c d : List Epoch}
    (hne : c ≠ d) (h : c ∈ comps) : c ∈ eraseComp comps d := by
  induction comps with
  | nil => simp at h
  | cons hd tl ih =>
      by_cases he : hd = d
      · subst he
        rcases List.mem_cons.1 h with rfl | hmem
        · exact absurd rfl hne
        · simpa [eraseComp] using hmem
      · rcases List.mem_cons.1 h with rfl | hmem
        · simp [eraseComp, he]
        · simp only [eraseComp, if_neg he]
          exact List.mem_cons_of_mem _ (ih hmem)

theorem eraseComp_subset {comps : List (List Epoch)} {c d : List Epoch}
    (h : c ∈ eraseComp comps d) : c ∈ comps := by
  induction comps with
  | nil => simp [eraseComp] at h
  | cons hd tl ih =>
      by_cases he : hd = d
      · subst he
        simp only [eraseComp, if_pos rfl] at h
        exact List.mem_cons_of_mem _ h
      · simp only [eraseComp, if_neg he] at h
        rcases List.mem_cons.1 h with rfl | hmem
        · exact List.mem_cons_self _ _
        · exact List.mem_cons_of_mem _ (ih hmem)

/-- Invariant of the forest scan: the components cover exactly the epochs
seen so far (the finite set `s`), and accepted-edge count plus component
count equals the number of distinct epochs seen. -/
structure MstInv (comps : List (List Epoch)) (acc : List GEdge)
    (s : Finset Epoch) : Prop where
  mem_iff : ∀ a, (∃ c ∈ comps, a ∈ c) ↔ a ∈ s
  count : acc.length + comps.length = s.card

theorem mstStep_inv {comps : List (List Epoch)} {acc : List GEdge}
    {s : Finset Epoch} (h : MstInv comps acc s) (e : GEdge) :
    MstInv (mstStep (comps, acc) e).1 (mstStep (comps, acc) e).2
      (insert e.1 (insert e.2 s)) := by
  rcases h with ⟨hmem, hcount⟩
  cases h1 : findComp comps e.1 with
  | some c1 =>
      rcases findComp_eq_some h1 with ⟨hc1mem, he1⟩
      have he1s : e.1 ∈ s := (hmem e.1).1 ⟨c1, hc1mem, he1⟩
      cases h2 : findComp comps e.2 with
      | some c2 =>
          rcases findComp_eq_some h2 with ⟨hc2mem, he2⟩
          have he2s : e.2 ∈ s := (hmem e.2).1 ⟨c2, hc2mem, he2⟩
          have hins : insert e.1 (insert e.2 s) = s := by
            rw [Finset.insert_eq_self.2 he2s, Finset.insert_eq_self.2 he1s]
          rw [hins]
          by_cases hcc : c1 = c2
          · simp only [mstStep, h1, h2, if_pos hcc]
            exact ⟨hmem, hcount⟩
          · simp only [mstStep, h1, h2, if_neg hcc]
            have hc2e : c2 ∈ eraseComp comps c1 :=
              eraseComp_mem_of_ne (fun hh => hcc hh.symm) hc2mem
            have hperm : comps.Perm
                (c1 :: c2 :: eraseComp (eraseComp comps c1) c2) :=
              (eraseComp_perm hc1mem).trans
                (List.Perm.cons c1 (eraseComp_perm hc2e))
            refine ⟨?_, ?_⟩
            · intro a
              rw [← hmem a]
              constructor
              · rintro ⟨c, hc, ha⟩
                rcases List.mem_cons.1 hc with rfl | hc
                · rcases List.mem_append.1 ha with hm | hm
                  · exact ⟨c1, hc1mem, hm⟩
                  · exact ⟨c2, hc2mem, hm⟩
                · exact ⟨c, eraseComp_subset (eraseComp_subset hc), ha⟩
              · rintro ⟨c, hc, ha⟩
                rcases List.mem_cons.1 (hperm.subset hc) with rfl | hc
                · exact ⟨c ++ c2, List.mem_cons_self _ _,
                    List.mem_append.2 (Or.inl ha)⟩
                · rcases List.mem_cons.1 hc with rfl | hc
                  · exact ⟨c1 ++ c, List.mem_cons_self _ _,
                      List.mem_append.2 (Or.inr ha)⟩
                  · exact ⟨c, List.mem_cons_of_mem _ hc, ha⟩
            · have hl1 : (eraseComp comps c1).length + 1 = comps.length :=
                eraseComp_length hc1mem
              have hl2 : (eraseComp (eraseComp comps c1) c2).length + 1 =
                  (eraseComp comps c1).length := eraseComp_length hc2e
              simp only [List.length_append, List.length_cons, List.length_nil]
              omega
      | none =>
          have he2no : ∀ c ∈ comps, e.2 ∉ c := findComp_eq_none h2
          have he2s : e.2 ∉ s := by
            intro hs
            rcases (hmem e.2).2 hs with ⟨c, hc, ha⟩
            exact he2no c hc ha
          have hins : insert e.1 (insert e.2 s) = insert e.2 s :=
            Finset.insert_eq_self.2 (Finset.mem_insert_of_mem he1s)
          rw [hins]
          simp only [mstStep, h1, h2]
          refine ⟨?_, ?_⟩
          · intro a
            rw [Finset.mem_insert, ← hmem a]
            constructor
            · rintro ⟨c, hc, ha⟩
              rcases List.mem_cons.1 hc with rfl | hc
              · rcases List.mem_append.1 ha with hm | hm
                · exact Or.inr ⟨c1, hc1mem, hm⟩
                · simp at hm
                  exact Or.inl hm
              · exact Or.inr ⟨c, eraseComp_subset hc, ha⟩
            · rintro (rfl | ⟨c, hc, ha⟩)
              · exact ⟨c1 ++ [e.2], List.mem_cons_self _ _,
                  List.mem_append.2 (Or.inr (List.mem_singleton_self e.2))⟩
              · rcases List.mem_cons.1 ((eraseComp_perm hc1mem).subset hc)
                  with rfl | hc
                · exact ⟨c ++ [e.2], List.mem_cons_self _ _,
                    List.mem_append.2 (Or.inl ha)⟩
                · exact ⟨c, List.mem_cons_of_mem _ hc, ha⟩
          · have hl1 : (eraseComp comps c1).length + 1 = comps.length :=
              eraseComp_length hc1mem
            rw [Finset.card_insert_of_not_mem he2s]
            simp only [List.length_append, List.length_cons, List.length_nil]
            omega
  | none =>
      have he1no : ∀ c ∈ comps, e.1 ∉ c := findComp_eq_none h1
      have he1s : e.1 ∉ s := by
        intro hs
        rcases (hmem e.1).2 hs with ⟨c, hc, ha⟩
        exact he1no c hc ha
      cases h2 : findComp comps e.2 with
      | some c2 =>
          rcases findComp_eq_some h2 with ⟨hc2mem, he2⟩
          have he2s : e.2 ∈ s := (hmem e.2).1 ⟨c2, hc2mem, he2⟩
          have hins : insert e.1 (insert e.2 s) = insert e.1 s := by
            rw [Finset.insert_eq_self.2 he2s]
          rw [hins]
          simp only [mstStep, h1, h2]
          refine ⟨?_, ?_⟩
          · intro a
            rw [Finset.mem_insert, ← hmem a]
            constructor
            · rintro ⟨c, hc, ha⟩
              rcases List.mem_cons.1 hc with rfl | hc
              · rcases List.mem_append.1 ha with hm | hm
                · exact Or.inr ⟨c2, hc2mem, hm⟩
                · simp at hm
                  exact Or.inl hm
              · exact Or.inr ⟨c, eraseComp_subset hc, ha⟩
            · rintro (rfl | ⟨c, hc, ha⟩)
              · exact ⟨c2 ++ [e.1], List.mem_cons_self _ _,
                  List.mem_append.2 (Or.inr (List.mem_singleton_self e.1))⟩
              · rcases List.mem_cons.1 ((eraseComp_perm hc2mem).subset hc)
                  with rfl | hc
                · exact ⟨c ++ [e.1], List.mem_cons_self _ _,
                    List.mem_append.2 (Or.inl ha)⟩
                · exact ⟨c, List.mem_cons_of_mem _ hc, ha⟩
          · have hl2 : (eraseComp comps c2).length + 1 = comps.length :=
              eraseComp_length hc2mem
            rw [Finset.card_insert_of_not_mem he1s]
            simp only [List.length_append, List.length_cons, List.length_nil]
            omega
      | none =>
          have he2no : ∀ c ∈ comps, e.2 ∉ c := findComp_eq_none h2
          have he2s : e.2 ∉ s := by
            intro hs
            rcases (hmem e.2).2 hs with ⟨c, hc, ha⟩
            exact he2no c hc ha
          by_cases heq : e.1 = e.2
          · simp only [mstStep, h1, h2, if_pos heq]
            have hins : insert e.1 (insert e.2 s) = insert e.1 s := by
              rw [heq, Finset.insert_idem]
            rw [hins]
            refine ⟨?_, ?_⟩
            · intro a
              rw [Finset.mem_insert, ← hmem a]
              constructor
              · rintro ⟨c, hc, ha⟩
                rcases List.mem_cons.1 hc with rfl | hc
                · simp at ha
                  exact Or.inl ha
                · exact Or.inr ⟨c, hc, ha⟩
              · rintro (rfl | ⟨c, hc, ha⟩)
                · exact ⟨[e.1], List.mem_cons_self _ _, List.mem_singleton_self e.1⟩
                · exact ⟨c, List.mem_cons_of_mem _ hc, ha⟩
            · rw [Finset.card_insert_of_not_mem he1s]
              simp only [List.length_cons]
              omega
          · simp only [mstStep, h1, h2, if_neg heq]
            have he1i : e.1 ∉ insert e.2 s := by
              rw [Finset.mem_insert]
              rintro (h | h)
              · exact heq h
              · exact he1s h
            refine ⟨?_, ?_⟩
            · intro a
              rw [Finset.mem_insert, Finset.mem_insert, ← hmem a]
              constructor
              · rintro ⟨c, hc, ha⟩
                rcases List.mem_cons.1 hc with rfl | hc
                · rcases List.mem_cons.1 ha with rfl | ha
                  · exact Or.inl rfl
                  · simp at ha
                    exact Or.inr (Or.inl ha)
                · exact Or.inr (Or.inr ⟨c, hc, ha⟩)
              · rintro (rfl | rfl | ⟨c, hc, ha⟩)
                · exact ⟨[e.1, e.2], List.mem_cons_self _ _, List.mem_cons_self _ _⟩
                · exact ⟨[e.1, e.2], List.mem_cons_self _ _,
                    List.mem_cons_of_mem _ (List.mem_singleton_self e.2)⟩
                · exact ⟨c, List.mem_cons_of_mem _ hc, ha⟩
            · rw [Finset.card_insert_of_not_mem he1i,
                Finset.card_insert_of_not_mem he2s]
              simp only [List.length_append, List.length_cons, List.length_nil]
              omega

theorem mstFold_inv : ∀ (es : List GEdge) (comps : List (List Epoch))
    (acc : List GEdge) (s : Finset Epoch), MstInv comps acc s →
    MstInv (es.foldl mstStep (comps, acc)).1 (es.foldl mstStep (comps, acc)).2
      (s ∪ (nodesOf es).toFinset) := by
  intro es
  induction es with
  | nil =>
      intro comps acc s h
      simpa [nodesOf] using h
  | cons e tl ih =>
      intro comps acc s h
      have hstep := mstStep_inv h e
      have hrec := ih (mstStep (comps, acc) e).1 (mstStep (comps, acc) e).2
        (insert e.1 (insert e.2 s)) hstep
      rw [List.foldl_cons]
      have hset : insert e.1 (insert e.2 s) ∪ (nodesOf tl).toFinset =
          s ∪ (nodesOf (e :: tl)).toFinset := by
        ext b
        simp only [nodesOf, List.flatMap_cons, Finset.mem_union,
          Finset.mem_insert, List.mem_toFinset, List.mem_append,
          List.mem_cons, List.mem_singleton, List.not_mem_nil, or_false]
        tauto
      rw [← hset]
      exact hrec

theorem spanningForest_length (es : List GEdge) :
    (spanningForest es).length + numComponents es = numDistinctNodes es := by
  have h0 : MstInv [] [] (∅ : Finset Epoch) := by
    refine ⟨?_, ?_⟩
    · intro a
      simp
    · simp
  have h := mstFold_inv es [] [] ∅ h0
  rcases h with ⟨_, hcount⟩
  simpa [spanningForest, numComponents, numDistinctNodes, mstFold] using hcount

theorem mstStep_acc (st : List (List Epoch) × List GEdge) (e : GEdge) :
    (mstStep st e).2 = st.2 ∨ (mstStep st e).2 = st.2 ++ [e] := by
  unfold mstStep
  cases h1 : findComp st.1 e.1 with
  | some c1 =>
      cases h2 : findComp st.1 e.2 with
      | some c2 =>
          by_cases hcc : c1 = c2
          · simp [hcc]
          · simp [hcc]
      | none => simp
  | none =>
      cases h2 : findComp st.1 e.2 with
      | some c2 => simp
      | none =>
          by_cases heq : e.1 = e.2
          · simp [heq]
          · simp [heq]

theorem mstFold_acc_mem : ∀ (es : List GEdge)
    (st : List (List Epoch) × List GEdge) (a : GEdge),
    a ∈ (es.foldl mstStep st).2 → a ∈ st.2 ∨ a ∈ es := by
  intro es
  induction es with
  | nil =>
      intro st a h
      exact Or.inl h
  | cons e tl ih =>
      intro st a h
      rw [List.foldl_cons] at h
      rcases ih (mstStep st e) a h with hm | hm
      · rcases mstStep_acc st e with hs | hs
        · rw [hs] at hm
          exact Or.inl hm
        · rw [hs] at hm
          rcases List.mem_append.1 hm with hm | hm
          · exact Or.inl hm
          · simp at hm
            subst hm
            exact Or.inr (List.mem_cons_self _ _)
      · exact Or.inr (List.mem_cons_of_mem _ hm)

/-- Every edge kept by the forest scan comes from the input edge list. -/
theorem spanningForest_subset {es : List GEdge} {a : GEdge}
    (h : a ∈ spanningForest es) : a ∈ es := by
  rcases mstFold_acc_mem es ([], []) a h with hm | hm
  · simp at hm
  · exact hm

/-- Every epoch absorbed into a component is an endpoint of an accepted
edge (true as long as no self-loop edge has been processed). -/
def Covered (comps : List (List Epoch)) (acc : List GEdge) : Prop :=
  ∀ a, (∃ c ∈ comps, a ∈ c) → ∃ ed ∈ acc, a = ed.1 ∨ a = ed.2

theorem mstStep_covered {comps : List (List Epoch)} {acc : List GEdge}
    (h : Covered comps acc) {e : GEdge} (hne : e.1 ≠ e.2) :
    Covered (mstStep (comps, acc) e).1 (mstStep (comps, acc) e).2 := by
  have hmono : ∀ (a : Epoch), (∃ ed ∈ acc, a = ed.1 ∨ a = ed.2) →
      ∃ ed ∈ acc ++ [e], a = ed.1 ∨ a = ed.2 := by
    rintro a ⟨ed, hed, hor⟩
    exact ⟨ed, List.mem_append.2 (Or.inl hed), hor⟩
  cases h1 : findComp comps e.1 with
  | some c1 =>
      cases h2 : findComp comps e.2 with
      | some c2 =>
          by_cases hcc : c1 = c2
          · simp only [mstStep, h1, h2, if_pos hcc]
            exact h
          · simp only [mstStep, h1, h2, if_neg hcc]
            rintro a ⟨c, hc, ha⟩
            rcases List.mem_cons.1 hc with rfl | hc
            · rcases List.mem_append.1 ha with hm | hm
              · exact hmono a (h a ⟨c1, (findComp_eq_some h1).1, hm⟩)
              · exact hmono a (h a ⟨c2, (findComp_eq_some h2).1, hm⟩)
            · exact hmono a (h a ⟨c, eraseComp_subset (eraseComp_subset hc), ha⟩)
      | none =>
          simp only [mstStep, h1, h2]
          rintro a ⟨c, hc, ha⟩
          rcases List.mem_cons.1 hc with rfl | hc
          · rcases List.mem_append.1 ha with hm | hm
            · exact hmono a (h a ⟨c1, (findComp_eq_some h1).1, hm⟩)
            · simp at hm
              subst hm
              exact ⟨e, List.mem_append.2 (Or.inr (List.mem_singleton_self e)),
                Or.inr rfl⟩
          · exact hmono a (h a ⟨c, eraseComp_subset hc, ha⟩)
  | none =>
      cases h2 : findComp comps e.2 with
      | some c2 =>
          simp only [mstStep, h1, h2]
          rintro a ⟨c, hc, ha⟩
          rcases List.mem_cons.1 hc with rfl | hc
          · rcases List.mem_append.1 ha with hm | hm
            · exact hmono a (h a ⟨c2, (findComp_eq_some h2).1, hm⟩)
            · simp at hm
              subst hm
              exact ⟨e, List.mem_append.2 (Or.inr (List.mem_singleton_self e)),
                Or.inl rfl⟩
          · exact hmono a (h a ⟨c, eraseComp_subset hc, ha⟩)
      | none =>
          simp only [mstStep, h1, h2, if_neg hne]
          rintro a ⟨c, hc, ha⟩
          rcases List.mem_cons.1 hc with rfl | hc
          · rcases List.mem_cons.1 ha with rfl | ha
            · exact ⟨e, List.mem_append.2 (Or.inr (List.mem_singleton_self e)),
                Or.inl rfl⟩
            · simp at ha
              subst ha
              exact ⟨e, List.mem_append.2 (Or.inr (List.mem_singleton_self e)),
                Or.inr rfl⟩
          · exact hmono a (h a ⟨c, hc, ha⟩)

theorem mstFold_covered : ∀ (es : List GEdge) (comps : List (List Epoch))
    (acc : List GEdge), Covered comps acc → (∀ e ∈ es, e.1 ≠ e.2) →
    Covered (es.foldl mstStep (comps, acc)).1 (es.foldl mstStep (comps, acc)).2 := by
  intro es
  induction es with
  | nil =>
      intro comps acc h _
      exact h
  | cons e tl ih =>
      intro comps acc h hne
      rw [List.foldl_cons]
      have hstep := mstStep_covered h (hne e (List.mem_cons_self _ _))
      exact ih (mstStep (comps, acc) e).1 (mstStep (comps, acc) e).2 hstep
        (fun x hx => hne x (List.mem_cons_of_mem _ hx))

/-- When no input edge is a self-loop, every epoch of the input network is an
endpoint of some edge kept by the forest scan. -/
theorem spanningForest_covers {es : List GEdge}
    (hne : ∀ e ∈ es, e.1 ≠ e.2) {a : Epoch} (ha : a ∈ nodesOf es) :
    ∃ ed ∈ spanningForest es, a = ed.1 ∨ a = ed.2 := by
  have h0 : MstInv [] [] (∅ : Finset Epoch) := by
    refine ⟨?_, ?_⟩
    · intro a
      simp
    · simp
  have hinv := mstFold_inv es [] [] ∅ h0
  have hcomp : ∃ c ∈ (mstFold es).1, a ∈ c := by
    rcases hinv with ⟨hmem, _⟩
    exact (hmem a).2 (by simpa [List.mem_toFinset] using ha)
  have hcov0 : Covered [] [] := by
    rintro a ⟨c, hc, _⟩
    simp at hc
  exact mstFold_covered es [] [] hcov0 hne a hcomp

theorem mst_matrix_entry (ifgs : List IfgM) {y x : Nat}
    (hy : y < gridRows ifgs) (hx : x < gridCols ifgs) :
    ((mst_matrix ifgs).getD y []).getD x none = mstPixel ifgs y x := by
  have h1 : (mst_matrix ifgs).getD y []
      = (List.range (gridCols ifgs)).map fun xx => mstPixel ifgs y xx := by
    have hlen : y < (mst_matrix ifgs).length := by
      simpa [mst_matrix] using hy
    rw [List.getD_eq_getElem _ _ hlen]
    simp [mst_matrix]
  rw [h1]
  have hlen2 : x < ((List.range (gridCols ifgs)).map
      fun xx => mstPixel ifgs y xx).length := by
    simpa using hx
  rw [List.getD_eq_getElem _ _ hlen2]
  simp

/-- C1 (amended): for every in-range pixel, the per-pixel result of
`mst_matrix` is the missing marker exactly when zero interferograms are
coherent there; with at least one coherent interferogram it is a maximal
forest whose edge count plus the number of connected components of the
coherent epoch graph equals the number of distinct coherent epochs, hence
exactly `e - 1` edges whenever that graph is connected. -/
theorem mst_matrix_pixel_edge_count (ifgs : List IfgM) (y x : Nat)
    (hy : y < gridRows ifgs) (hx : x < gridCols ifgs) :
    (coherentAt ifgs y x = [] →
      ((mst_matrix ifgs).getD y []).getD x none = none)
    ∧ (coherentAt ifgs y x ≠ [] →
      ∃ forest, ((mst_matrix ifgs).getD y []).getD x none = some forest
        ∧ forest.length + numComponents (ifgEdges (coherentAt ifgs y x))
            = numDistinctNodes (ifgEdges (coherentAt ifgs y x))
        ∧ (numComponents (ifgEdges (coherentAt ifgs y x)) = 1 →
            forest.length
              = numDistinctNodes (ifgEdges (coherentAt ifgs y x)) - 1)) := by
  rw [mst_matrix_entry ifgs hy hx]
  constructor
  · intro h
    simp [mstPixel, h]
  · intro h
    refine ⟨spanningForest (ifgEdges (coherentAt ifgs y x)), ?_, ?_, ?_⟩
    · simp [mstPixel, List.isEmpty_iff, h]
    · exact spanningForest_length _
    · intro h1
      have := spanningForest_length (ifgEdges (coherentAt ifgs y x))
      omega

def mstWitnessIfgs : List IfgM := [⟨0, 1, [[some 5]]⟩, ⟨1, 2, [[some 7]]⟩]

theorem mst_matrix_pixel_edge_count_witness :
    0 < gridRows mstWitnessIfgs ∧ 0 < gridCols mstWitnessIfgs ∧
    coherentAt mstWitnessIfgs 0 0 ≠ [] ∧
    (∃ forest,
      ((mst_matrix mstWitnessIfgs).getD 0 []).getD 0 none = some forest
      ∧ forest.length + numComponents (ifgEdges (coherentAt mstWitnessIfgs 0 0))
          = numDistinctNodes (ifgEdges (coherentAt mstWitnessIfgs 0 0))) := by
  refine ⟨by decide, by decide, by decide, ?_⟩
  rcases (mst_matrix_pixel_edge_count mstWitnessIfgs 0 0 (by decide)
    (by decide)).2 (by decide) with ⟨f, h1, h2, _⟩
  exact ⟨f, h1, h2⟩

def cexSingleCoherent : List IfgM := [⟨0, 1, [[some 5]]⟩, ⟨1, 2, [[none]]⟩]

def cexDisconnected : List IfgM := [⟨0, 1, [[some 1]]⟩, ⟨2, 3, [[some 1]]⟩]

/-- C1 counterexample: at a pixel with exactly one coherent interferogram the
result is a one-edge tree, not the missing marker (matching
`test_partial_nan_pixel_stack`, which asserts `len(res[0,0]) == 1`); and at a
pixel whose two coherent interferograms span 4 epochs in two disconnected
components the forest has 2 edges, not `4 - 1 = 3`. -/
theorem mst_matrix_single_coherent_counterexample :
    (coherentAt cexSingleCoherent 0 0).length = 1
    ∧ ((mst_matrix cexSingleCoherent).getD 0 []).getD 0 none = some [(0, 1)]
    ∧ some [((0 : Nat), (1 : Nat))] ≠ none
    ∧ (coherentAt cexDisconnected 0 0).length = 2
    ∧ numDistinctNodes (ifgEdges (coherentAt cexDisconnected 0 0)) = 4
    ∧ ((mst_matrix cexDisconnected).getD 0 []).getD 0 none
        = some [(0, 1), (2, 3)]
    ∧ ([((0 : Nat), (1 : Nat)), (2, 3)] : List GEdge).length ≠ 4 - 1 := by
  decide

/-- C2 (amended): over a non-empty network whose epoch graph is connected and
whose interferograms each join two distinct epochs, `default_mst` returns
exactly (number of unique epochs) - 1 edges, every returned edge is an input
`(first, second)` pair, and every epoch of the input network is an endpoint
of some returned edge. -/
theorem default_mst_spanning (ifgs : List IfgM)
    (_hne : ifgs ≠ [])
    (hconn : numComponents (ifgEdges ifgs) = 1)
    (hdist : ∀ i ∈ ifgs, i.first ≠ i.second) :
    (default_mst ifgs).length = numDistinctNodes (ifgEdges ifgs) - 1
    ∧ (∀ e ∈ default_mst ifgs, e ∈ ifgEdges ifgs)
    ∧ (∀ i ∈ ifgs, ∃ ed ∈ default_mst ifgs, i.first = ed.1 ∨ i.first = ed.2)
    ∧ (∀ i ∈ ifgs, ∃ ed ∈ default_mst ifgs,
        i.second = ed.1 ∨ i.second = ed.2) := by
  have hlen := spanningForest_length (ifgEdges ifgs)
  have hnsl : ∀ e ∈ ifgEdges ifgs, e.1 ≠ e.2 := by
    intro e he
    rcases List.mem_map.1 he with ⟨i, hi, rfl⟩
    exact hdist i hi
  refine ⟨?_, ?_, ?_, ?_⟩
  · unfold default_mst
    omega
  · intro e he
    exact spanningForest_subset he
  · intro i hi
    have hmem : i.first ∈ nodesOf (ifgEdges ifgs) := by
      refine List.mem_flatMap.2 ⟨(i.first, i.second), ?_, ?_⟩
      · exact List.mem_map.2 ⟨i, hi, rfl⟩
      · exact List.mem_cons_self _ _
    exact spanningForest_covers hnsl hmem
  · intro i hi
    have hmem : i.second ∈ nodesOf (ifgEdges ifgs) := by
      refine List.mem_flatMap.2 ⟨(i.first, i.second), ?_, ?_⟩
      · exact List.mem_map.2 ⟨i, hi, rfl⟩
      · exact List.mem_cons_of_mem _ (List.mem_singleton_self _)
    exact spanningForest_covers hnsl hmem

def defaultMstWitnessIfgs : List IfgM :=
  [⟨0, 1, [[some 1]]⟩, ⟨1, 2, [[some 1]]⟩, ⟨2, 3, [[some 1]]⟩,
    ⟨3, 4, [[some 1]]⟩, ⟨4, 5, [[some 1]]⟩]

theorem default_mst_spanning_witness :
    defaultMstWitnessIfgs ≠ []
    ∧ numComponents (ifgEdges defaultMstWitnessIfgs) = 1
    ∧ numDistinctNodes (ifgEdges defaultMstWitnessIfgs) = 6
    ∧ (default_mst defaultMstWitnessIfgs).length
        = numDistinctNodes (ifgEdges defaultMstWitnessIfgs) - 1 := by
  refine ⟨by decide, by decide, by decide, ?_⟩
  exact (default_mst_spanning defaultMstWitnessIfgs (by decide) (by decide)
    (by decide)).1

def cexDisconnectedNet : List IfgM := [⟨0, 1, [[some 1]]⟩, ⟨2, 3, [[some 1]]⟩]

def cexSelfLoopNet : List IfgM := [⟨7, 7, [[some 1]]⟩]

/-- C2 counterexample: a non-empty but disconnected 2-interferogram network
covering 4 unique epochs yields 2 edges, not `4 - 1 = 3`; and a degenerate
self-pair network contains epoch 7 while the returned edge set is empty, so
not every input epoch appears in the result. -/
theorem default_mst_count_counterexample :
    cexDisconnectedNet ≠ []
    ∧ numDistinctNodes (ifgEdges cexDisconnectedNet) = 4
    ∧ (default_mst cexDisconnectedNet).length = 2
    ∧ (2 : Nat) ≠ 4 - 1
    ∧ (7, 7) ∈ ifgEdges cexSelfLoopNet
    ∧ default_mst cexSelfLoopNet = [] := by
  decide

/-- C3: if every interferogram is missing at an in-range pixel, the
`mst_matrix` entry there is the missing marker, and the result raster has
the same shape (rows, columns) as the input rasters. -/
theorem mst_matrix_all_missing (ifgs : List IfgM) (y x : Nat)
    (hy : y < gridRows ifgs) (hx : x < gridCols ifgs)
    (hall : ∀ i ∈ ifgs, i.phaseAt y x = none) :
    ((mst_matrix ifgs).getD y []).getD x none = none
    ∧ (mst_matrix ifgs).length = gridRows ifgs
    ∧ (∀ row ∈ mst_matrix ifgs, row.length = gridCols ifgs) := by
  refine ⟨?_, ?_, ?_⟩
  · rw [mst_matrix_entry ifgs hy hx]
    have hcoh : coherentAt ifgs y x = [] := by
      unfold coherentAt
      rw [List.filter_eq_nil_iff]
      intro i hi
      rw [hall i hi]
      simp
    simp [mstPixel, hcoh]
  · simp [mst_matrix]
  · intro row hrow
    rcases List.mem_map.1 hrow with ⟨yy, _, rfl⟩
    simp

def allMissingIfgs : List IfgM := [⟨0, 1, [[none]]⟩, ⟨1, 2, [[none]]⟩]

theorem mst_matrix_all_missing_witness :
    0 < gridRows allMissingIfgs ∧ 0 < gridCols allMissingIfgs
    ∧ (∀ i ∈ allMissingIfgs, i.phaseAt 0 0 = none)
    ∧ ((mst_matrix allMissingIfgs).getD 0 []).getD 0 none = none
    ∧ (mst_matrix allMissingIfgs).length = gridRows allMissingIfgs := by
  refine ⟨by decide, by decide, by decide, ?_, ?_⟩
  · exact (mst_matrix_all_missing allMissingIfgs 0 0 (by decide) (by decide)
      (by decide)).1
  · exact (mst_matrix_all_missing allMissingIfgs 0 0 (by decide) (by decide)
      (by decide)).2.1

/-! ## pyrate/correct.py data model -/

/-- `MultiplePaths` file descriptor as used by correct.py: permanent sampled
path, temporary working copy, and converted output path. -/
structure MultiplePathsM where
  sampled_path : String
  tmp_sampled_path : String
  converted_path : String
  deriving Repr, DecidableEq

/-- The interferogram-derived summary fields computed by the external
collaborator `shared._prep_ifg` (opaque payloads modelled as naturals). -/
structure IfgSummary where
  nan_fraction : Nat
  first : Nat
  second : Nat
  time_span : Nat
  nrows : Nat
  ncols : Nat
  metadata : Nat
  deriving Repr, DecidableEq

/-- `PrereadIfg` record stored per interferogram in the preread dict
(`_create_ifg_dict`). -/
structure PrereadIfg where
  path : String
  tmp_path : String
  nan_fraction : Nat
  first : Nat
  second : Nat
  time_span : Nat
  nrows : Nat
  ncols : Nat
  metadata : Nat
  deriving Repr, DecidableEq

def mkPrereadIfg (d : MultiplePathsM) (s : IfgSummary) : PrereadIfg :=
  ⟨d.sampled_path, d.tmp_sampled_path, s.nan_fraction, s.first, s.second,
    s.time_span, s.nrows, s.ncols, s.metadata⟩

/-- Values stored in the preread dictionary: per-interferogram records plus
the four derived header fields attached by
`__save_ifgs_dict_with_headers_and_epochs`. -/
inductive DictVal where
  | pre (p : PrereadIfg)
  | epochs (e : Nat)
  | gtv (g : Nat)
  | mdv (m : Nat)
  | wktv (w : Nat)
  deriving Repr, DecidableEq

/-- The per-interferogram dictionary built by one pass of
`_create_ifg_dict`, keyed by `tmp_sampled_path`. -/
def buildIfgsDict (prep : MultiplePathsM → IfgSummary)
    (files : List MultiplePathsM) : List (String × DictVal) :=
  files.map fun d => (d.tmp_sampled_path, DictVal.pre (mkPrereadIfg d (prep d)))

/-- `shared.join_dicts` over the allgathered per-worker dicts: a plain
union of the mappings. -/
def joinDicts (ds : List (List (String × DictVal))) : List (String × DictVal) :=
  ds.flatten

/-- Modelled from the spec: `mpiops.array_split` (not under `src/`) —
a deterministic, order-preserving contiguous split into `n` chunks
(numpy `array_split` sizing: longer chunks first). -/
def arraySplit {α : Type} : Nat → List α → List (List α)
  | 0, _ => []
  | n + 1, l =>
      let s := l.length / (n + 1) + (if l.length % (n + 1) = 0 then 0 else 1)
      l.take s :: arraySplit n (l.drop s)

theorem arraySplit_flatten {α : Type} :
    ∀ (n : Nat) (l : List α), (arraySplit (n + 1) l).flatten = l := by
  intro n
  induction n with
  | zero =>
      intro l
      simp [arraySplit]
  | succ m ih =>
      intro l
      show (List.take _ l :: arraySplit (m + 1) (List.drop _ l)).flatten = l
      rw [List.flatten_cons, ih, List.take_append_drop]

/-- Python-dict lookup on an association list (first binding wins). -/
def alookup (k : String) : List (String × DictVal) → Option DictVal
  | [] => none
  | kv :: rest => if kv.1 = k then some kv.2 else alookup k rest

theorem alookup_eq_none_iff {k : String} :
    ∀ {l : List (String × DictVal)},
    alookup k l = none ↔ k ∉ l.map Prod.fst := by
  intro l
  induction l with
  | nil => simp [alookup]
  | cons kv rest ih =>
      by_cases hk : kv.1 = k
      · simp [alookup, hk]
      · simp only [alookup, if_neg hk, List.map_cons, List.mem_cons, ih]
        constructor
        · rintro h (heq | hmem)
          · exact hk heq.symm
          · exact h hmem
        · intro h hmem
          exact h (Or.inr hmem)

theorem alookup_eq_some_iff {k : String} {v : DictVal} :
    ∀ {l : List (String × DictVal)}, (l.map Prod.fst).Nodup →
    (alookup k l = some v ↔ (k, v) ∈ l) := by
  intro l
  induction l with
  | nil => simp [alookup]
  | cons kv rest ih =>
      rcases kv with ⟨k1, v1⟩
      intro hnd
      simp only [List.map_cons, List.nodup_cons] at hnd
      by_cases hk : k1 = k
      · subst hk
        constructor
        · intro h
          have hv : v1 = v := by simpa [alookup] using h
          rw [← hv]
          exact List.mem_cons_self _ _
        · intro h
          rcases List.mem_cons.1 h with heq | hmem
          · injection heq with h1 h2
            simp [alookup, h2]
          · exact (hnd.1 (List.mem_map.2 ⟨(k1, v), hmem, rfl⟩)).elim
      · constructor
        · intro h
          have h2 : alookup k rest = some v := by simpa [alookup, hk] using h
          exact List.mem_cons_of_mem _ ((ih hnd.2).1 h2)
        · intro h
          rcases List.mem_cons.1 h with heq | hmem
          · exact (hk (congrArg Prod.fst heq).symm).elim
          · simpa [alookup, hk] using (ih hnd.2).2 hmem

theorem alookup_perm {l l' : List (String × DictVal)} (hp : l.Perm l')
    (hnd : (l.map Prod.fst).Nodup) (k : String) :
    alookup k l = alookup k l' := by
  have hnd' : (l'.map Prod.fst).Nodup := ((hp.map Prod.fst).nodup_iff).1 hnd
  cases h : alookup k l' with
  | some v =>
      exact (alookup_eq_some_iff hnd).2
        (hp.mem_iff.2 ((alookup_eq_some_iff hnd').1 h))
  | none =>
      have hnm : k ∉ l'.map Prod.fst := alookup_eq_none_iff.1 h
      exact alookup_eq_none_iff.2 (fun hm => hnm ((hp.map Prod.fst).mem_iff.1 hm))

theorem flatten_map_map {α β : Type} (f : α → β) :
    ∀ (L : List (List α)), (L.map (fun l => l.map f)).flatten
      = L.flatten.map f := by
  intro L
  induction L with
  | nil => rfl
  | cons hd tl ih =>
      rw [List.map_cons, List.flatten_cons, ih, List.flatten_cons,
        List.map_append]

theorem joinDicts_build (prep : MultiplePathsM → IfgSummary)
    (chunks : List (List MultiplePathsM)) :
    joinDicts (chunks.map (buildIfgsDict prep)) = buildIfgsDict prep chunks.flatten := by
  unfold joinDicts buildIfgsDict
  exact flatten_map_map _ chunks

/-- C8: merging the per-worker preread mappings is independent of the
partition: any two contiguous partitions of the same file list (in
particular any worker counts for `mpiops.array_split`) merge to the very
same mapping, and merging a reordered partition yields the same canonical
lookup as long as the working-path keys are globally unique. -/
theorem create_ifg_dict_merge_independent (prep : MultiplePathsM → IfgSummary) :
    (∀ (files : List MultiplePathsM) (chunks1 chunks2 : List (List MultiplePathsM)),
      chunks1.flatten = files → chunks2.flatten = files →
      joinDicts (chunks1.map (buildIfgsDict prep))
        = joinDicts (chunks2.map (buildIfgsDict prep)))
    ∧ (∀ (files : List MultiplePathsM) (n1 n2 : Nat),
      joinDicts ((arraySplit (n1 + 1) files).map (buildIfgsDict prep))
        = joinDicts ((arraySplit (n2 + 1) files).map (buildIfgsDict prep)))
    ∧ (∀ (chunks chunks' : List (List MultiplePathsM)), chunks.Perm chunks' →
      ((joinDicts (chunks.map (buildIfgsDict prep))).map Prod.fst).Nodup →
      ∀ k, alookup k (joinDicts (chunks.map (buildIfgsDict prep)))
        = alookup k (joinDicts (chunks'.map (buildIfgsDict prep)))) := by
  refine ⟨?_, ?_, ?_⟩
  · intro files chunks1 chunks2 h1 h2
    rw [joinDicts_build, joinDicts_build, h1, h2]
  · intro files n1 n2
    rw [joinDicts_build, joinDicts_build, arraySplit_flatten, arraySplit_flatten]
  · intro chunks chunks' hperm hnd k
    have hp : (joinDicts (chunks.map (buildIfgsDict prep))).Perm
        (joinDicts (chunks'.map (buildIfgsDict prep))) :=
      (hperm.map (buildIfgsDict prep)).flatten
    exact alookup_perm hp hnd k

def c8File (n : Nat) : MultiplePathsM :=
  ⟨"p" ++ toString n, "t" ++ toString n, "c" ++ toString n⟩

def c8Files : List MultiplePathsM := [c8File 0, c8File 1, c8File 2, c8File 3, c8File 4]

def c8Prep : MultiplePathsM → IfgSummary := fun _ => ⟨0, 0, 0, 0, 0, 0, 0⟩

theorem create_ifg_dict_merge_independent_witness :
    (arraySplit 2 c8Files).flatten = c8Files
    ∧ (arraySplit 4 c8Files).flatten = c8Files
    ∧ joinDicts ((arraySplit 1 c8Files).map (buildIfgsDict c8Prep))
        = joinDicts ((arraySplit 2 c8Files).map (buildIfgsDict c8Prep))
    ∧ joinDicts ((arraySplit 2 c8Files).map (buildIfgsDict c8Prep))
        = joinDicts ((arraySplit 4 c8Files).map (buildIfgsDict c8Prep)) := by
  refine ⟨by decide, by decide, ?_, ?_⟩
  · exact (create_ifg_dict_merge_independent c8Prep).2.1 c8Files 0 1
  · exact (create_ifg_dict_merge_independent c8Prep).2.1 c8Files 1 3

/-! ## The phase-closure path filter (C7) -/

/-- `_filter_to_closure_checked_multiple_paths` from
`update_params_with_closure_checked_ifg_list`: keep a descriptor iff its
working path is in the retained `ifg_files` set. -/
def filterToClosureCheckedMultiplePaths (ifgFiles : List String)
    (multiPaths : List MultiplePathsM) : List MultiplePathsM :=
  multiPaths.filter (fun mp => mp.tmp_sampled_path ∈ ifgFiles)

/-- C7: the closure filter returns a sub-list (hence subset) of its input,
and re-running it on its own output with the same retained-path set is a
no-op. -/
theorem filter_closure_subset_idempotent (ifgFiles : List String)
    (multiPaths : List MultiplePathsM) :
    (filterToClosureCheckedMultiplePaths ifgFiles multiPaths).Sublist multiPaths
    ∧ (∀ mp ∈ filterToClosureCheckedMultiplePaths ifgFiles multiPaths,
        mp ∈ multiPaths)
    ∧ filterToClosureCheckedMultiplePaths ifgFiles
        (filterToClosureCheckedMultiplePaths ifgFiles multiPaths)
      = filterToClosureCheckedMultiplePaths ifgFiles multiPaths := by
  refine ⟨List.filter_sublist _, ?_, ?_⟩
  · intro mp hmp
    exact List.mem_of_mem_filter hmp
  · unfold filterToClosureCheckedMultiplePaths
    rw [List.filter_filter]
    simp

def c7Paths : List MultiplePathsM := [⟨"pa", "ta", "ca"⟩, ⟨"pb", "tb", "cb"⟩]

theorem filter_closure_subset_idempotent_witness :
    (filterToClosureCheckedMultiplePaths ["ta"] c7Paths).Sublist c7Paths
    ∧ filterToClosureCheckedMultiplePaths ["ta"]
        (filterToClosureCheckedMultiplePaths ["ta"] c7Paths)
      = filterToClosureCheckedMultiplePaths ["ta"] c7Paths := by
  refine ⟨?_, ?_⟩
  · exact (filter_closure_subset_idempotent ["ta"] c7Paths).1
  · exact (filter_closure_subset_idempotent ["ta"] c7Paths).2.2

/-! ## __save_ifgs_dict_with_headers_and_epochs (C9) -/

/-- Python dict assignment `d[k] = v`: replace an existing binding in place,
otherwise append a new one. -/
def dinsert (k : String) (v : DictVal) (d : List (String × DictVal)) :
    List (String × DictVal) :=
  if k ∈ d.map Prod.fst then
    d.map (fun kv => if kv.1 = k then (k, v) else kv)
  else d ++ [(k, v)]

/-- Python dict `d.pop(k)`: drop the binding of `k`. -/
def dpop (k : String) : List (String × DictVal) → List (String × DictVal)
  | [] => []
  | kv :: rest => if kv.1 = k then rest else kv :: dpop k rest

theorem dinsert_of_not_mem {k : String} {v : DictVal}
    {d : List (String × DictVal)} (h : k ∉ d.map Prod.fst) :
    dinsert k v d = d ++ [(k, v)] := by
  unfold dinsert
  rw [if_neg h]

theorem dpop_append_of_not_mem {k : String} :
    ∀ {d rest : List (String × DictVal)}, k ∉ d.map Prod.fst →
    dpop k (d ++ rest) = d ++ dpop k rest := by
  intro d
  induction d with
  | nil =>
      intro rest _
      rfl
  | cons kv tl ih =>
      intro rest h
      simp only [List.map_cons, List.mem_cons] at h
      push_neg at h
      have hne : ¬(kv.1 = k) := fun he => h.1 he.symm
      simp only [List.cons_append, dpop, if_neg hne]
      exact congrArg (fun l => kv :: l) (ih h.2)

theorem alookup_append_right {k : String} :
    ∀ {d rest : List (String × DictVal)}, k ∉ d.map Prod.fst →
    alookup k (d ++ rest) = alookup k rest := by
  intro d
  induction d with
  | nil =>
      intro rest _
      rfl
  | cons kv tl ih =>
      intro rest h
      simp only [List.map_cons, List.mem_cons] at h
      push_neg at h
      have hne : ¬(kv.1 = k) := fun he => h.1 he.symm
      simp only [List.cons_append, alookup, if_neg hne]
      exact ih h.2

theorem dinsert_append_fresh {k : String} {v : DictVal}
    {d tail : List (String × DictVal)} (hk1 : k ∉ d.map Prod.fst)
    (hk2 : k ∉ tail.map Prod.fst) :
    dinsert k v (d ++ tail) = d ++ (tail ++ [(k, v)]) := by
  have hnm : k ∉ (d ++ tail).map Prod.fst := by
    simp only [List.map_append, List.mem_append]
    rintro (hm | hm)
    · exact hk1 hm
    · exact hk2 hm
  rw [dinsert_of_not_mem hnm, List.append_assoc]

/-- `__save_ifgs_dict_with_headers_and_epochs`: attach the derived header
fields (`epochlist`, `gt`, `md`, `wkt`) to the merged mapping, persist that
enriched dictionary, then pop the four keys back out and return the
per-interferogram mapping.  The first component is the persisted dictionary,
the second the returned one.  The header values and the epoch list come from
external collaborators (`shared.get_geotiff_header_info`,
`algorithm.get_epochs`) and are opaque here. -/
def savePersistedDict (gt md wkt epochlist : Nat)
    (ifgsDict : List (String × DictVal)) : List (String × DictVal) :=
  dinsert "wkt" (DictVal.wktv wkt) (dinsert "md" (DictVal.mdv md)
    (dinsert "gt" (DictVal.gtv gt)
      (dinsert "epochlist" (DictVal.epochs epochlist) ifgsDict)))

def saveIfgsDictWithHeadersAndEpochs (gt md wkt epochlist : Nat)
    (ifgsDict : List (String × DictVal)) :
    List (String × DictVal) × List (String × DictVal) :=
  (savePersistedDict gt md wkt epochlist ifgsDict,
    dpop "wkt" (dpop "md" (dpop "epochlist" (dpop "gt"
      (savePersistedDict gt md wkt epochlist ifgsDict)))))

/-- C9: when (as in practice) no working path collides with the four derived
key names, the persisted dictionary carries all four derived keys while the
dictionary returned to callers is exactly the per-interferogram input
mapping, with none of the four derived keys. -/
theorem save_ifgs_dict_headers_frame (gt md wkt epochlist : Nat)
    (ifgsDict : List (String × DictVal))
    (hfresh : ∀ k ∈ ifgsDict.map Prod.fst,
      k ∉ (["gt", "md", "wkt", "epochlist"] : List String)) :
    alookup "gt" (saveIfgsDictWithHeadersAndEpochs gt md wkt epochlist ifgsDict).1
        = some (DictVal.gtv gt)
    ∧ alookup "md" (saveIfgsDictWithHeadersAndEpochs gt md wkt epochlist ifgsDict).1
        = some (DictVal.mdv md)
    ∧ alookup "wkt" (saveIfgsDictWithHeadersAndEpochs gt md wkt epochlist ifgsDict).1
        = some (DictVal.wktv wkt)
    ∧ alookup "epochlist"
        (saveIfgsDictWithHeadersAndEpochs gt md wkt epochlist ifgsDict).1
        = some (DictVal.epochs epochlist)
    ∧ (saveIfgsDictWithHeadersAndEpochs gt md wkt epochlist ifgsDict).2
        = ifgsDict := by
  have hgt : "gt" ∉ ifgsDict.map Prod.fst := fun hm => hfresh _ hm (by decide)
  have hmd : "md" ∉ ifgsDict.map Prod.fst := fun hm => hfresh _ hm (by decide)
  have hwkt : "wkt" ∉ ifgsDict.map Prod.fst := fun hm => hfresh _ hm (by decide)
  have hep : "epochlist" ∉ ifgsDict.map Prod.fst :=
    fun hm => hfresh _ hm (by decide)
  have hpersist : savePersistedDict gt md wkt epochlist ifgsDict
      = ifgsDict ++ [("epochlist", DictVal.epochs epochlist),
        ("gt", DictVal.gtv gt), ("md", DictVal.mdv md),
        ("wkt", DictVal.wktv wkt)] := by
    unfold savePersistedDict
    rw [dinsert_of_not_mem hep]
    rw [dinsert_append_fresh hgt (by simp)]
    rw [dinsert_append_fresh hmd (by simp)]
    rw [dinsert_append_fresh hwkt (by simp)]
    rfl
  have hfst : (saveIfgsDictWithHeadersAndEpochs gt md wkt epochlist
      ifgsDict).1 = savePersistedDict gt md wkt epochlist ifgsDict := rfl
  have hsnd : (saveIfgsDictWithHeadersAndEpochs gt md wkt epochlist
      ifgsDict).2 = dpop "wkt" (dpop "md" (dpop "epochlist" (dpop "gt"
        (savePersistedDict gt md wkt epochlist ifgsDict)))) := rfl
  refine ⟨?_, ?_, ?_, ?_, ?_⟩
  · rw [hfst, hpersist, alookup_append_right hgt]
    simp [alookup]
  · rw [hfst, hpersist, alookup_append_right hmd]
    simp [alookup]
  · rw [hfst, hpersist, alookup_append_right hwkt]
    simp [alookup]
  · rw [hfst, hpersist, alookup_append_right hep]
    simp [alookup]
  · rw [hsnd, hpersist, dpop_append_of_not_mem hgt]
    have e1 : dpop "gt" [("epochlist", DictVal.epochs epochlist),
        ("gt", DictVal.gtv gt), ("md", DictVal.mdv md),
        ("wkt", DictVal.wktv wkt)]
        = [("epochlist", DictVal.epochs epochlist), ("md", DictVal.mdv md),
            ("wkt", DictVal.wktv wkt)] := by
      simp [dpop]
    rw [e1, dpop_append_of_not_mem hep]
    have e2 : dpop "epochlist" [("epochlist", DictVal.epochs epochlist),
        ("md", DictVal.mdv md), ("wkt", DictVal.wktv wkt)]
        = [("md", DictVal.mdv md), ("wkt", DictVal.wktv wkt)] := by
      simp [dpop]
    rw [e2, dpop_append_of_not_mem hmd]
    have e3 : dpop "md" [("md", DictVal.mdv md), ("wkt", DictVal.wktv wkt)]
        = [("wkt", DictVal.wktv wkt)] := by
      simp [dpop]
    rw [e3, dpop_append_of_not_mem hwkt]
    have e4 : dpop "wkt" [("wkt", DictVal.wktv wkt)] = [] := by
      simp [dpop]
    rw [e4, List.append_nil]

def c9Dict : List (String × DictVal) :=
  [("ta", DictVal.pre (mkPrereadIfg ⟨"pa", "ta", "ca"⟩ ⟨0, 0, 0, 0, 0, 0, 0⟩)),
    ("tb", DictVal.pre (mkPrereadIfg ⟨"pb", "tb", "cb"⟩ ⟨0, 0, 0, 0, 0, 0, 0⟩))]

theorem save_ifgs_dict_headers_frame_witness :
    (∀ k ∈ c9Dict.map Prod.fst,
      k ∉ (["gt", "md", "wkt", "epochlist"] : List String))
    ∧ alookup "gt" (saveIfgsDictWithHeadersAndEpochs 1 2 3 4 c9Dict).1
        = some (DictVal.gtv 1)
    ∧ (saveIfgsDictWithHeadersAndEpochs 1 2 3 4 c9Dict).2 = c9Dict := by
  refine ⟨by decide, ?_, ?_⟩
  · exact (save_ifgs_dict_headers_frame 1 2 3 4 c9Dict (by decide)).1
  · exact (save_ifgs_dict_headers_frame 1 2 3 4 c9Dict (by decide)).2.2.2.2

/-! ## The correct_ifgs orchestrator (C4, C5, C6, C10)

The seven registered step collaborators, the closure check
(`filter_to_closure_checked_ifgs`), `shared._prep_ifg`, `get_tiles` and
`ref_pixel_calc_wrapper` are external; they are supplied as opaque functions
in `StepImpls`.  Observable side effects are recorded as an event trace. -/

/-- The shared configuration state (`params`) fields read or written by
correct.py itself. -/
structure Params where
  correct : List String
  interferogram_files : List MultiplePathsM
  phase_closure : Bool
  rows : Nat
  cols : Nat
  tiles : Option Nat
  preread_ifgs : Option (List (String × DictVal))
  refx_found : Option Int
  refy_found : Option Int
  deriving Repr, DecidableEq

/-- Opaque external collaborators. `closureCheck` returns the retained
working-path list of `filter_to_closure_checked_ifgs`, or `none` when zero
loops were found. -/
structure StepImpls where
  orbfit : Params → Params
  refphase : Params → Params
  demerror : Params → Params
  mst : Params → Params
  apscorrect : Params → Params
  maxvar : Params → Params
  closureCheck : Params → Option (List String)
  prepIfg : MultiplePathsM → IfgSummary
  getTiles : Params → Nat
  refPixelCalc : Params → Int × Int
  headerGt : Nat
  headerMd : Nat
  headerWkt : Nat
  getEpochs : List (String × DictVal) → Nat

/-- Observable side effects of the orchestrator. -/
inductive Ev where
  | tiles
  | ifgDict
  | refPixel
  | step (name : String)
  | closureCheck
  | writeFilteredList
  | detectUnwrapErrors
  deriving Repr, DecidableEq

/-- The `correct_steps` registry keys, in their Python declaration order. -/
def correctStepNames : List String :=
  ["orbfit", "refphase", "phase_closure", "demerror", "mst", "apscorrect",
    "maxvar"]

/-- `_create_ifg_dict`: build the preread mapping over the active
interferogram files, persist it with the derived header fields, and store
the stripped mapping in the shared state. -/
def createIfgDict (impls : StepImpls) (p : Params) : Params × List Ev :=
  let dict := buildIfgsDict impls.prepIfg p.interferogram_files
  let saved := saveIfgsDictWithHeadersAndEpochs impls.headerGt impls.headerMd
    impls.headerWkt (impls.getEpochs dict) dict
  ({ p with preread_ifgs := some saved.2 }, [Ev.ifgDict])

/-- Outcome of the phase_closure step: either an updated state with its
inner event trace, or termination of the whole run (`sys.exit`) with an
exit code and message. -/
inductive ClosureOutcome where
  | done (p : Params) (evs : List Ev)
  | exitRun (code : Nat) (msg : String) (evs : List Ev)
  deriving Repr, DecidableEq

def zeroLoopsMsg : String :=
  "Zero loops are returned after phase clouser calcs!!! \nCheck your phase closure configuration!"

/-- `update_params_with_closure_checked_ifg_list`: skip when the phase
closure flag is off; exit the run when the closure check returns no
retained list (`sys.exit` on a string message exits with status 1);
otherwise filter the active interferogram set, write the filtered list,
mask unwrap-error pixels, and rebuild the preread mapping. -/
def update_params_with_closure_checked_ifg_list (impls : StepImpls)
    (p : Params) : ClosureOutcome :=
  if p.phase_closure = false then ClosureOutcome.done p []
  else
    match impls.closureCheck p with
    | none => ClosureOutcome.exitRun 1 zeroLoopsMsg [Ev.closureCheck]
    | some ifgFiles =>
        let filtered :=
          filterToClosureCheckedMultiplePaths ifgFiles p.interferogram_files
        let r := createIfgDict impls { p with interferogram_files := filtered }
        ClosureOutcome.done r.1
          ([Ev.closureCheck, Ev.writeFilteredList, Ev.detectUnwrapErrors]
            ++ r.2)

/-- Dispatch of `correct_steps[step](params)` for the six ordinary steps. -/
def applyStep (impls : StepImpls) : String → Params → Option Params
  | "orbfit", p => some (impls.orbfit p)
  | "refphase", p => some (impls.refphase p)
  | "demerror", p => some (impls.demerror p)
  | "mst", p => some (impls.mst p)
  | "apscorrect", p => some (impls.apscorrect p)
  | "maxvar", p => some (impls.maxvar p)
  | _, _ => none

/-- Result of a `correct_ifgs` run: normal completion, the
`ConfigException` raised by `__validate_correct_steps`, process exit from
the phase_closure step, or a `KeyError` on an unregistered step (never
reached after validation). -/
inductive RunResult where
  | ok (p : Params) (evs : List Ev)
  | configError (msg : String) (evs : List Ev)
  | exited (code : Nat) (msg : String) (evs : List Ev)
  | keyError (name : String) (evs : List Ev)
  deriving Repr, DecidableEq

/-- The step loop of `correct_ifgs`: run through the requested steps in the
user-specified sequence, phase_closure taking the configuration as an extra
argument. -/
def runSteps (impls : StepImpls) : List String → Params → List Ev → RunResult
  | [], p, evs => RunResult.ok p evs
  | s :: rest, p, evs =>
      if s = "phase_closure" then
        match update_params_with_closure_checked_ifg_list impls p with
        | ClosureOutcome.exitRun code msg inner =>
            RunResult.exited code msg (evs ++ [Ev.step s] ++ inner)
        | ClosureOutcome.done p1 inner =>
            runSteps impls rest p1 (evs ++ [Ev.step s] ++ inner)
      else
        match applyStep impls s p with
        | none => RunResult.keyError s evs
        | some p1 => runSteps impls rest p1 (evs ++ [Ev.step s])

def unsupportedStepMsg (s : String) : String :=
  s ++ " is not a supported correct step. Supported steps are "
    ++ String.intercalate ", " correctStepNames

/-- `__validate_correct_steps`: the first requested step name missing from
the registry, if any. -/
def validateCorrectSteps (p : Params) : Option String :=
  p.correct.find? (fun s => !(correctStepNames.contains s))

/-- `correct_ifgs`: validate the requested steps, then do the housekeeping
(tiling, preread dict, reference pixel) and run the steps in user order. -/
def correct_ifgs (impls : StepImpls) (p : Params) : RunResult :=
  match validateCorrectSteps p with
  | some s => RunResult.configError (unsupportedStepMsg s) []
  | none =>
      let p1 := { p with tiles := some (impls.getTiles p) }
      let r2 := createIfgDict impls p1
      let rp := impls.refPixelCalc r2.1
      let p3 := { r2.1 with refx_found := some rp.1, refy_found := some rp.2 }
      runSteps impls p.correct p3 ([Ev.tiles] ++ r2.2 ++ [Ev.refPixel])

/-- Step-invocation trace of an event list. -/
def stepTrace (evs : List Ev) : List String :=
  evs.filterMap (fun ev =>
    match ev with
    | Ev.step s => some s
    | _ => none)

/-! ### C10 and C6: the phase_closure step -/

/-- C10: with the phase-closure flag off, the phase_closure step returns
immediately: the shared state is unchanged and no effect happens — no
closure check, no filtered-list write, no unwrap-error masking, no preread
rebuild — even when the step was requested. -/
theorem phase_closure_disabled_noop (impls : StepImpls) (p : Params)
    (h : p.phase_closure = false) :
    update_params_with_closure_checked_ifg_list impls p
      = ClosureOutcome.done p [] := by
  unfold update_params_with_closure_checked_ifg_list
  rw [h]
  rfl

def trivialImpls : StepImpls where
  orbfit := id
  refphase := id
  demerror := id
  mst := id
  apscorrect := id
  maxvar := id
  closureCheck := fun _ => some []
  prepIfg := fun _ => ⟨0, 0, 0, 0, 0, 0, 0⟩
  getTiles := fun _ => 0
  refPixelCalc := fun _ => (0, 0)
  headerGt := 0
  headerMd := 0
  headerWkt := 0
  getEpochs := fun _ => 0

def emptyParams : Params :=
  ⟨[], [], false, 0, 0, none, none, none, none⟩

theorem phase_closure_disabled_noop_witness :
    emptyParams.phase_closure = false
    ∧ update_params_with_closure_checked_ifg_list trivialImpls emptyParams
      = ClosureOutcome.done emptyParams [] :=
  ⟨rfl, phase_closure_disabled_noop trivialImpls emptyParams rfl⟩

/-- C6: with phase closure enabled, a closure check reporting zero loops
(`None`) makes the phase_closure step terminate the whole run via
`sys.exit` with status 1 (non-zero) and the descriptive zero-loops
message, after the closure check and before any other effect. -/
theorem phase_closure_zero_loops_exits (impls : StepImpls) (p : Params)
    (hen : p.phase_closure = true)
    (hzero : impls.closureCheck p = none) :
    update_params_with_closure_checked_ifg_list impls p
      = ClosureOutcome.exitRun 1 zeroLoopsMsg [Ev.closureCheck]
    ∧ 1 ≠ 0 ∧ zeroLoopsMsg ≠ "" := by
  refine ⟨?_, by decide, by decide⟩
  unfold update_params_with_closure_checked_ifg_list
  rw [hen, hzero]
  rfl

def zeroLoopImpls : StepImpls :=
  { trivialImpls with closureCheck := fun _ => none }

def closureOnParams : Params :=
  { emptyParams with phase_closure := true }

theorem phase_closure_zero_loops_exits_witness :
    closureOnParams.phase_closure = true
    ∧ zeroLoopImpls.closureCheck closureOnParams = none
    ∧ update_params_with_closure_checked_ifg_list zeroLoopImpls
        closureOnParams
      = ClosureOutcome.exitRun 1 zeroLoopsMsg [Ev.closureCheck] :=
  ⟨rfl, rfl,
    (phase_closure_zero_loops_exits zeroLoopImpls closureOnParams rfl rfl).1⟩

/-! ### C4 and C5: step sequencing and pre-flight validation -/

theorem stepTrace_append (a b : List Ev) :
    stepTrace (a ++ b) = stepTrace a ++ stepTrace b :=
  List.filterMap_append a b _

theorem closure_inner_no_step_events (impls : StepImpls) (p : Params)
    {p1 : Params} {inner : List Ev}
    (h : update_params_with_closure_checked_ifg_list impls p
      = ClosureOutcome.done p1 inner) :
    stepTrace inner = [] := by
  unfold update_params_with_closure_checked_ifg_list at h
  by_cases hpc : p.phase_closure = false
  · rw [if_pos hpc] at h
    injection h with h1 h2
    rw [← h2]
    rfl
  · rw [if_neg hpc] at h
    cases hc : impls.closureCheck p with
    | none =>
        rw [hc] at h
        simp at h
    | some fs =>
        rw [hc] at h
        injection h with h1 h2
        rw [← h2]
        rfl

theorem runSteps_trace (impls : StepImpls) :
    ∀ (steps : List String) (p : Params) (evs : List Ev)
    (p' : Params) (evs' : List Ev),
    (∀ s ∈ steps, s ∈ correctStepNames) →
    runSteps impls steps p evs = RunResult.ok p' evs' →
    stepTrace evs' = stepTrace evs ++ steps := by
  intro steps
  induction steps with
  | nil =>
      intro p evs p' evs' _ h
      simp only [runSteps] at h
      injection h with h1 h2
      rw [← h2]
      simp
  | cons s rest ih =>
      intro p evs p' evs' hval h
      simp only [runSteps] at h
      by_cases hpc : s = "phase_closure"
      · rw [if_pos hpc] at h
        cases hcl : update_params_with_closure_checked_ifg_list impls p with
        | exitRun code msg inner =>
            rw [hcl] at h
            simp at h
        | done p1 inner =>
            rw [hcl] at h
            have hrec := ih p1 (evs ++ [Ev.step s] ++ inner) p' evs'
              (fun x hx => hval x (List.mem_cons_of_mem _ hx)) h
            rw [hrec, stepTrace_append, stepTrace_append,
              closure_inner_no_step_events impls p hcl]
            simp [stepTrace]
      · rw [if_neg hpc] at h
        have hs : s ∈ correctStepNames := hval s (List.mem_cons_self _ _)
        have happ : ∃ q, applyStep impls s p = some q := by
          simp only [correctStepNames, List.mem_cons,
            List.not_mem_nil, or_false] at hs
          rcases hs with rfl | rfl | rfl | rfl | rfl | rfl | rfl
          · exact ⟨impls.orbfit p, rfl⟩
          · exact ⟨impls.refphase p, rfl⟩
          · exact absurd rfl hpc
          · exact ⟨impls.demerror p, rfl⟩
          · exact ⟨impls.mst p, rfl⟩
          · exact ⟨impls.apscorrect p, rfl⟩
          · exact ⟨impls.maxvar p, rfl⟩
        rcases happ with ⟨q, hq⟩
        rw [hq] at h
        have hrec := ih q (evs ++ [Ev.step s]) p' evs'
          (fun x hx => hval x (List.mem_cons_of_mem _ hx)) h
        rw [hrec, stepTrace_append]
        simp [stepTrace]

/-- C4: when every requested step name is registered and the run completes,
the step collaborators are invoked exactly in the user-declared order of
the `correct` list — equal as a sequence, with no reordering, skipping or
insertion; the registry declaration order
`[orbfit, refphase, phase_closure, demerror, mst, apscorrect, maxvar]`
plays no role in the sequencing. -/
theorem correct_ifgs_user_order (impls : StepImpls) (p : Params)
    (hval : ∀ s ∈ p.correct, s ∈ correctStepNames)
    (p' : Params) (evs : List Ev)
    (hok : correct_ifgs impls p = RunResult.ok p' evs) :
    stepTrace evs = p.correct := by
  unfold correct_ifgs at hok
  have hv : validateCorrectSteps p = none := by
    unfold validateCorrectSteps
    rw [List.find?_eq_none]
    intro s hs
    simp [hval s hs]
  rw [hv] at hok
  have htr := runSteps_trace impls p.correct _ _ p' evs hval hok
  rw [htr]
  simp [stepTrace, createIfgDict]

def orderParams : Params :=
  ⟨["demerror", "orbfit", "mst"], [], false, 0, 0, none, none, none, none⟩

theorem correct_ifgs_user_order_witness :
    (∀ s ∈ orderParams.correct, s ∈ correctStepNames)
    ∧ ∃ p' evs, correct_ifgs trivialImpls orderParams = RunResult.ok p' evs
        ∧ stepTrace evs = orderParams.correct := by
  refine ⟨by decide, ⟨_, _, rfl, ?_⟩⟩
  exact correct_ifgs_user_order trivialImpls orderParams (by decide) _ _ rfl

/-- C5: a requested step name outside the 7-name registry makes
`correct_ifgs` raise the `ConfigException` of `__validate_correct_steps`
with an empty event trace: no tiling, no metadata collection, no
reference-pixel computation and no step collaborator has executed. -/
theorem correct_ifgs_unknown_step_rejected (impls : StepImpls) (p : Params)
    (hbad : ∃ s ∈ p.correct, s ∉ correctStepNames) :
    ∃ s, s ∈ p.correct ∧ s ∉ correctStepNames
      ∧ correct_ifgs impls p
        = RunResult.configError (unsupportedStepMsg s) [] := by
  rcases hbad with ⟨s0, hs0, hns0⟩
  have hfind : ∃ s, validateCorrectSteps p = some s := by
    cases hv : validateCorrectSteps p with
    | some s => exact ⟨s, rfl⟩
    | none =>
        exfalso
        have := List.find?_eq_none.1 hv s0 hs0
        simp at this
        exact hns0 this
  rcases hfind with ⟨s, hv⟩
  have hmem : s ∈ p.correct := List.mem_of_find?_eq_some hv
  have hprop := List.find?_some hv
  have hnot : s ∉ correctStepNames := by
    simp at hprop
    exact hprop
  refine ⟨s, hmem, hnot, ?_⟩
  unfold correct_ifgs
  rw [hv]

def badStepParams : Params :=
  ⟨["orbfit", "bogus"], [], false, 0, 0, none, none, none, none⟩

theorem correct_ifgs_unknown_step_rejected_witness :
    (∃ s ∈ badStepParams.correct, s ∉ correctStepNames)
    ∧ ∃ s, s ∈ badStepParams.correct ∧ s ∉ correctStepNames
      ∧ correct_ifgs trivialImpls badStepParams
        = RunResult.configError (unsupportedStepMsg s) [] :=
  ⟨⟨"bogus", by decide, by decide⟩,
    correct_ifgs_unknown_step_rejected trivialImpls badStepParams
      ⟨"bogus", by decide, by decide⟩⟩

end PyRateSpec
